import Mathlib

/-!
Verification development for `src/common/main/d_zip.h` (dxx-rebirth), the
generic zip view over N sequences with a selector bitmask choosing which
sequences participate in the termination test, and a compile-time
minimum-static-size bounds check.

Modelling conventions (a shallow embedding of the header):
- A range is modelled as a Lean `List α` over a common element type; the
  heterogeneity of the C++ parameter pack is irrelevant to the properties
  proved here, which concern positions, lengths and selection only.
- An iterator into a range of length `L` is modelled as a `Nat` offset;
  `std::begin` is offset `0` and `std::ranges::end` is offset `L`.
- The iterator tuple of `zip_iterator` is a `List Nat` of per-range offsets,
  in range-declaration order.
- The sentinel (`zip_sentinel`) is a `List (Option Nat)`: an examined slot
  stores `some L` (the real end offset captured by `capture_end_iterator`),
  an unexamined slot stores `none`, the zero-cost `std::ignore` placeholder.
- The `zip_sequence_length_selector` enum value is a `Nat` reduced modulo
  `2 ^ 32`, matching its `uint32_t` underlying type.
- A static size (`get_static_size` result) is an `Option Nat`: `some n` for
  `std::integral_constant<std::size_t, n>`, `none` for `std::nullptr_t`.
- Compile-time rejection by a `requires` clause is modelled as a boolean
  acceptance predicate evaluating to `false`.
-/

/-- Selector bit test, from `examine_zip_element` (d_zip.h lines 76-77):
`N < 32 && (static_cast<uint32_t>(examine_end_range) & (1u << N))`. -/
def examine_zip_element (mask n : Nat) : Bool :=
  decide (n < 32) && decide ((mask % 2 ^ 32) &&& ((1 <<< n) % 2 ^ 32) ≠ 0)

/-- Advance of the iterator tuple, from `increment_iterator` (d_zip.h lines
27-35): `discard_arguments(++(std::get<N>(iterator))...)` applies `++` to
every component. -/
def increment_iterator (iterator : List Nat) : List Nat :=
  iterator.map (· + 1)

/-- Dereference of the iterator tuple, from `dereference_iterator` (d_zip.h
lines 37-53): builds the tuple of `*(std::get<N>(iterator))...`.  In the
offset model, dereferencing offset `i` in range `s` is `s[i]?`; an
out-of-range access (undefined behaviour in the C++ source) is `none`. -/
def dereference_iterator (ranges : List (List α)) (iterator : List Nat) : List (Option α) :=
  List.zipWith (fun s i => s[i]?) ranges iterator

/-- One sentinel slot, from `capture_end_iterator` (d_zip.h lines 183-190):
`std::ignore` (here `none`) when the slot's sentinel type is the placeholder,
otherwise `std::ranges::end(r)` (here the range's length). -/
def capture_end_iterator (examined : Bool) (len : Nat) : Option Nat :=
  if examined then some len else none

/-- Sentinel slots from slot index `s` onward, one per remaining range
length; indexing helper for `capture_end_iterators`. -/
def capture_end_iterators_from (mask : Nat) : Nat → List Nat → List (Option Nat)
  | _, [] => []
  | s, len :: lens =>
    capture_end_iterator (examine_zip_element mask s) len ::
      capture_end_iterators_from mask (s + 1) lens

/-- Sentinel construction, from `capture_end_iterators` (d_zip.h lines
192-197) combined with `iterator_end_type` (lines 179-181): slot `N` holds
the end offset of range `N` when `examine_zip_element mask N` holds and the
placeholder otherwise. -/
def capture_end_iterators (mask : Nat) (lens : List Nat) : List (Option Nat) :=
  capture_end_iterators_from mask 0 lens

/-- Per-slot comparison, from `compare_zip_iterator` (d_zip.h lines 199-219):
an examined slot compares its current position with the sentinel's end
marker; an unexamined slot contributes the constant `std::false_type`
without touching either operand. -/
def compare_zip_iterator (m : Bool) (l : Nat) (r : Option Nat) : Bool :=
  if m then decide (some l = r) else false

/-- The fold `(compare_zip_iterator<examine_zip_element<mask, N>::value, N>(l, r)
|| ... || false)` of `compare_zip_iterators`, unrolled from slot index `s`. -/
def compare_zip_iterators_from (mask : Nat) : Nat → List Nat → List (Option Nat) → Bool
  | _, [], _ => false
  | _, _ :: _, [] => false
  | s, p :: ps, e :: es =>
    compare_zip_iterator (examine_zip_element mask s) p e ||
      compare_zip_iterators_from mask (s + 1) ps es

/-- Equality against the sentinel, from `compare_zip_iterators` (d_zip.h
lines 221-229): a right fold with `||` over all slot indices. -/
def compare_zip_iterators (mask : Nat) (l : List Nat) (r : List (Option Nat)) : Bool :=
  compare_zip_iterators_from mask 0 l r

/-- One pairwise step of the `minimum_static_size` template fold (d_zip.h
lines 102-137): a leading indeterminate size is dropped in favour of the
second (lines 105-109); an indeterminate second size is dropped in favour of
the first (lines 114-124); when both are determinate the lesser survives
(lines 131-137, `std::conditional<(size0::value < size1::value), size0,
size1>`). -/
def fold_static_size : Option Nat → Option Nat → Option Nat
  | none, s1 => s1
  | some s0, none => some s0
  | some s0, some s1 => if s0 < s1 then some s0 else some s1

/-- The recursion of the `minimum_static_size` specialisations over the
remaining sizes, with `acc` the already-folded leading element: each step
replaces the first two elements by their pairwise fold until the one-element
base case (d_zip.h lines 96-100) yields that element. -/
def minimum_static_size_fold : Option Nat → List (Option Nat) → Option Nat
  | acc, [] => acc
  | acc, s :: rest => minimum_static_size_fold (fold_static_size acc s) rest

/-- Minimum-static-size fold, from the `minimum_static_size` template
specialisations (d_zip.h lines 90-137).  The empty-tuple case has no
instantiation in the source; it is mapped to `none` and never reached by
`zip`, whose `requires` clause demands at least one range. -/
def minimum_static_size : List (Option Nat) → Option Nat
  | [] => none
  | s :: rest => minimum_static_size_fold s rest

/-- Static-size filter from slot index `s` onward; indexing helper for
`get_examined_static_size`. -/
def get_examined_static_size_from (mask : Nat) : Nat → List (Option Nat) → List (Option Nat)
  | _, [] => []
  | s, sz :: rest =>
    (if examine_zip_element mask s then sz else none) ::
      get_examined_static_size_from mask (s + 1) rest

/-- Static-size filter, from `get_examined_static_size` (d_zip.h lines
87-88): slot `N` keeps its static size when examined and is replaced by the
indeterminate `std::nullptr_t` otherwise. -/
def get_examined_static_size (mask : Nat) (sizes : List (Option Nat)) : List (Option Nat) :=
  get_examined_static_size_from mask 0 sizes

/-- Static bounds check, from the concept `zip_static_size_bounds_check`
(d_zip.h lines 303-332): satisfied when the minimum examined static size is
indeterminate, and otherwise exactly when it is at most the minimum static
size over all ranges.  When the examined minimum is determinate but the
overall minimum is not (impossible for filters produced by
`get_examined_static_size`), the source expression
`minimum_all_static_size::value` is ill-formed, i.e. rejected. -/
def zip_static_size_bounds_check (mask : Nat) (sizes : List (Option Nat)) : Bool :=
  match minimum_static_size (get_examined_static_size mask sizes) with
  | none => true
  | some me =>
    match minimum_static_size sizes with
    | none => false
    | some ma => decide (me ≤ ma)

/-- Acceptance of a `zip` instantiation, from the `requires` clause of class
`zip` (d_zip.h lines 334-342): the selector is not the empty mask, there is
at least one range, and the static bounds check passes.  `sizes` lists the
`get_static_size` result of each range. -/
def zip_accepted (mask : Nat) (sizes : List (Option Nat)) : Bool :=
  decide (mask % 2 ^ 32 ≠ 0) && decide (0 < sizes.length) && zip_static_size_bounds_check mask sizes

/-- Begin position of a zip view, from the `zip` constructor (d_zip.h lines
352-355): component `N` is `std::begin(rN)`, offset `0` in the model. -/
def zip_begin (ranges : List (List α)) : List Nat :=
  List.replicate ranges.length 0

/-- Fuel bound for the iteration loop: one more than the longest range, an
upper bound on the number of steps before any in-range examined slot reaches
its end marker. -/
def zip_fuel (ranges : List (List α)) : Nat :=
  (ranges.map List.length).foldr max 0 + 1

/-- The canonical traversal loop documented in d_zip.h (lines 253-258):
`for (auto i = zip_range.begin(), e = zip_range.end(); i != e; ++i)`,
collecting the dereferenced tuples.  `fuel` bounds the number of steps so
the model is total; every claim supplies enough fuel for the loop to stop at
the sentinel first. -/
def zip_loop (mask : Nat) (ranges : List (List α)) (snt : List (Option Nat)) :
    Nat → List Nat → List (List (Option α))
  | 0, _ => []
  | fuel + 1, it =>
    if compare_zip_iterators mask it snt then []
    else dereference_iterator ranges it :: zip_loop mask ranges snt fuel (increment_iterator it)

/-- The full begin-to-end traversal of the zip view with selector `mask`:
the list of tuples produced by the documented loop, starting from
`begin()` and comparing against the sentinel captured at construction. -/
def zip_to_list (mask : Nat) (ranges : List (List α)) : List (List (Option α)) :=
  zip_loop mask ranges (capture_end_iterators mask (ranges.map List.length))
    (zip_fuel ranges) (zip_begin ranges)

/-- `k`-fold application of `operator++` (d_zip.h lines 279-283), i.e. `k`
advances of the iterator tuple. -/
def advance_iterator : Nat → List Nat → List Nat
  | 0, it => it
  | k + 1, it => advance_iterator k (increment_iterator it)

/-- Iterator subtraction, from `zip_iterator::operator-` (d_zip.h lines
293-296): `std::get<0>(l) - std::get<0>(r)`, computed from sequence 0's
positions alone, as a signed difference. -/
def zip_iterator_sub (l r : List Nat) : Int :=
  (l.getD 0 0 : Int) - (r.getD 0 0 : Int)

/-- The state a `zip` constructor establishes (d_zip.h lines 352-355): the
begin iterator tuple (the base-class subobject) and the stored sentinel
`m_end`. -/
def zip_make (mask : Nat) (ranges : List (List α)) : List Nat × List (Option Nat) :=
  (zip_begin ranges, capture_end_iterators mask (ranges.map List.length))

/-- The selector-tagged constructor (d_zip.h lines 356-360): it ignores the
`std::integral_constant` tag argument (`tag` here models its value, which
carries no runtime state) and delegates to the plain constructor of the same
instantiation. -/
def zip_make_selector (tag : Nat) (mask : Nat) (ranges : List (List α)) :
    List Nat × List (Option Nat) :=
  zip_make mask ranges

/-- Specification-level list of the determinate sizes: the known entries of
a static-size list, in order. -/
def known_sizes (sizes : List (Option Nat)) : List Nat :=
  sizes.filterMap id

/-- Specification-level minimum: the minimum of the known sizes when at
least one size is known, and `none` when every size is unknown. -/
def spec_min (sizes : List (Option Nat)) : Option Nat :=
  match known_sizes sizes with
  | [] => none
  | x :: xs => some (xs.foldl min x)

/-- The selector test is the bit test on the 32-bit selector value: for any
index, `examine_zip_element` holds exactly when the index is below 32 and
the corresponding bit of the truncated mask is set. -/
theorem examine_eq_testBit (mask n : Nat) :
    examine_zip_element mask n = (decide (n < 32) && Nat.testBit (mask % 2 ^ 32) n) := by
  unfold examine_zip_element
  by_cases h : n < 32
  · have h1 : (1 <<< n) % 2 ^ 32 = 2 ^ n := by
      rw [Nat.shiftLeft_eq, one_mul]
      exact Nat.mod_eq_of_lt (Nat.pow_lt_pow_right (by omega) h)
    rw [h1, Nat.and_two_pow]
    cases hb : Nat.testBit (mask % 2 ^ 32) n <;> simp [h, hb]
  · simp [h]

/-- Bit `n` of the value `1` is set exactly for `n = 0`. -/
theorem testBit_one_eq (n : Nat) : Nat.testBit 1 n = decide (n = 0) := by
  cases n with
  | zero => rfl
  | succ n => rw [Nat.testBit_add_one]; simp [Nat.zero_testBit]

/-- The default selector `zip_sequence_length_selector{1}` examines exactly
sequence 0. -/
theorem examine_one (n : Nat) : examine_zip_element 1 n = decide (n = 0) := by
  rw [examine_eq_testBit]
  have h1 : (1 : Nat) % 2 ^ 32 = 1 := rfl
  rw [h1, testBit_one_eq]
  by_cases h : n = 0
  · subst h; simp
  · simp [h]

/-- Unrolling of the `||` fold from slot index `s`: the comparison holds
exactly when some slot is examined and its position equals the end marker
stored in the sentinel at that slot. -/
theorem compare_from_iff (mask : Nat) (l : List Nat) :
    ∀ (s : Nat) (r : List (Option Nat)),
      compare_zip_iterators_from mask s l r = true ↔
        ∃ j, j < l.length ∧ examine_zip_element mask (s + j) = true ∧
          r.getD j none = some (l.getD j 0) := by
  induction l with
  | nil =>
    intro s r
    simp only [compare_zip_iterators_from, List.length_nil, Bool.false_eq_true, false_iff]
    rintro ⟨j, hj, _⟩
    exact absurd hj (Nat.not_lt_zero j)
  | cons p ps ih =>
    intro s r
    cases r with
    | nil =>
      simp only [compare_zip_iterators_from, Bool.false_eq_true, false_iff]
      rintro ⟨j, hj, hex, hget⟩
      simp [List.getD] at hget
    | cons e es =>
      rw [compare_zip_iterators_from, Bool.or_eq_true, ih (s + 1) es]
      constructor
      · rintro (h | ⟨j, hj, hex, hget⟩)
        · rcases hm : examine_zip_element mask s with _ | _
          · rw [compare_zip_iterator, hm] at h
            exact absurd h (by simp)
          · rw [compare_zip_iterator, hm] at h
            simp only [if_pos rfl] at h
            have he : some p = e := of_decide_eq_true h
            exact ⟨0, by simp, by simpa using hm, by simp [he.symm]⟩
        · refine ⟨j + 1, by simpa using hj, ?_, by simpa using hget⟩
          have harith : s + (j + 1) = (s + 1) + j := by omega
          rw [harith]
          exact hex
      · rintro ⟨j, hj, hex, hget⟩
        cases j with
        | zero =>
          left
          rw [compare_zip_iterator]
          simp only [Nat.add_zero] at hex
          rw [hex]
          simp only [List.getD_cons_zero] at hget
          simp [hget]
        | succ j =>
          right
          refine ⟨j, by simpa using hj, ?_, by simpa using hget⟩
          have harith : (s + 1) + j = s + (j + 1) := by omega
          rw [harith]
          exact hex

/-- The slot read out of a constructed sentinel: the end offset of the
corresponding range when the slot is examined, the placeholder otherwise. -/
theorem capture_from_getD (mask : Nat) :
    ∀ (lens : List Nat) (s j : Nat), j < lens.length →
      (capture_end_iterators_from mask s lens).getD j none =
        capture_end_iterator (examine_zip_element mask (s + j)) (lens.getD j 0) := by
  intro lens
  induction lens with
  | nil => intro s j h; simp at h
  | cons a t ih =>
    intro s j h
    cases j with
    | zero =>
      simp [capture_end_iterators_from]
    | succ j =>
      rw [capture_end_iterators_from]
      simp only [List.getD_cons_succ]
      have hj : j < t.length := by simpa using h
      rw [ih (s + 1) j hj]
      have harith : s + 1 + j = s + (j + 1) := by omega
      rw [harith]

/-- Equality of an iterator tuple against the sentinel captured from the
range lengths: it holds exactly when some examined slot's position equals
that range's end offset. -/
theorem compare_capture_iff (mask : Nat) (l lens : List Nat) (h : l.length = lens.length) :
    compare_zip_iterators mask l (capture_end_iterators mask lens) = true ↔
      ∃ j, j < l.length ∧ examine_zip_element mask j = true ∧ l.getD j 0 = lens.getD j 0 := by
  rw [compare_zip_iterators, compare_from_iff]
  constructor
  · rintro ⟨j, hj, hex, hget⟩
    refine ⟨j, hj, by simpa using hex, ?_⟩
    rw [capture_end_iterators, capture_from_getD mask lens 0 j (h ▸ hj)] at hget
    simp only [Nat.zero_add] at hget
    rw [capture_end_iterator] at hget
    simp only [Nat.zero_add] at hex
    rw [hex] at hget
    simp only [if_true] at hget
    exact (Option.some_inj.mp hget).symm
  · rintro ⟨j, hj, hex, hget⟩
    refine ⟨j, hj, by simpa using hex, ?_⟩
    rw [capture_end_iterators, capture_from_getD mask lens 0 j (h ▸ hj)]
    simp only [Nat.zero_add]
    rw [capture_end_iterator, hex]
    simp only [if_pos rfl]
    exact congrArg some hget.symm

/-- Advancing a lock-step position tuple advances every slot together. -/
theorem increment_replicate (n k : Nat) :
    increment_iterator (List.replicate n k) = List.replicate n (k + 1) := by
  rw [increment_iterator, List.map_replicate]

/-- `k` advances of a lock-step position tuple add `k` to every slot. -/
theorem advance_replicate (k : Nat) :
    ∀ (n m : Nat), advance_iterator k (List.replicate n m) = List.replicate n (m + k) := by
  induction k with
  | zero => intro n m; rw [advance_iterator, Nat.add_zero]
  | succ k ih =>
    intro n m
    rw [advance_iterator, increment_replicate, ih n (m + 1)]
    congr 1
    omega

/-- Reading any in-range slot of a constant tuple. -/
theorem getD_replicate (n k j : Nat) (h : j < n) :
    (List.replicate n k).getD j 0 = k := by
  rw [List.getD_eq_getElem?_getD, List.getElem?_replicate]
  simp [h]

/-- Reading a range length through the mapped length list. -/
theorem getD_map_length (ranges : List (List α)) (j : Nat) (h : j < ranges.length) :
    (ranges.map List.length).getD j 0 = (ranges.getD j []).length := by
  rw [List.getD_eq_getElem?_getD, List.getElem?_map, List.getD_eq_getElem?_getD,
    List.getElem?_eq_getElem h]
  rfl

/-- Termination test of the loop at step `k`: the lock-step iterator tuple
with every slot at offset `k` equals the sentinel exactly when some examined
range has length `k`. -/
theorem stop_iff (mask : Nat) (ranges : List (List α)) (k : Nat) :
    compare_zip_iterators mask (List.replicate ranges.length k)
        (capture_end_iterators mask (ranges.map List.length)) = true ↔
      ∃ j, j < ranges.length ∧ examine_zip_element mask j = true ∧
        (ranges.getD j []).length = k := by
  rw [compare_capture_iff mask _ _ (by simp)]
  constructor
  · rintro ⟨j, hj, hex, hget⟩
    rw [List.length_replicate] at hj
    rw [getD_replicate _ _ _ hj, getD_map_length _ _ hj] at hget
    exact ⟨j, hj, hex, hget.symm⟩
  · rintro ⟨j, hj, hex, hget⟩
    refine ⟨j, by simpa using hj, hex, ?_⟩
    rw [getD_replicate _ _ _ hj, getD_map_length _ _ hj]
    exact hget.symm

/-- Every member of a list of naturals is at most the `foldr max 0` of the
list. -/
theorem mem_le_foldr_max : ∀ {l : List Nat} {a : Nat}, a ∈ l → a ≤ l.foldr max 0 := by
  intro l
  induction l with
  | nil => intro a ha; exact absurd ha (List.not_mem_nil a)
  | cons b t ih =>
    intro a ha
    rcases List.mem_cons.mp ha with h | h
    · subst h
      exact le_max_left a (t.foldr max 0)
    · exact le_trans (ih h) (le_max_right b (t.foldr max 0))

/-- Zipping a list against a constant list of its own length is a map. -/
theorem zipWith_replicate_len (f : γ → Nat → β) :
    ∀ (l : List γ) (k : Nat),
      List.zipWith f l (List.replicate l.length k) = l.map (fun s => f s k) := by
  intro l
  induction l with
  | nil => intro k; rfl
  | cons a t ih =>
    intro k
    simp only [List.length_cons, List.replicate_succ, List.zipWith_cons_cons, List.map_cons]
    rw [ih k]

/-- Dereferencing the lock-step tuple at offset `k` yields the tuple of each
range's element at offset `k`. -/
theorem dereference_replicate (ranges : List (List α)) (k : Nat) :
    dereference_iterator ranges (List.replicate ranges.length k) =
      ranges.map (fun s => s[k]?) := by
  rw [dereference_iterator, zipWith_replicate_len]

/-- The documented traversal loop, started with every slot at offset `k`,
visits exactly the offsets `k, k+1, ..., L-1` when `L` is the first offset
at which the sentinel comparison succeeds and the fuel covers the distance. -/
theorem zip_loop_range (mask : Nat) (ranges : List (List α)) (snt : List (Option Nat)) (L : Nat) :
    ∀ (fuel k : Nat), k ≤ L → L - k < fuel →
      (∀ j, k ≤ j → j < L →
        compare_zip_iterators mask (List.replicate ranges.length j) snt = false) →
      compare_zip_iterators mask (List.replicate ranges.length L) snt = true →
      zip_loop mask ranges snt fuel (List.replicate ranges.length k) =
        (List.range' k (L - k)).map
          (fun j => dereference_iterator ranges (List.replicate ranges.length j)) := by
  intro fuel
  induction fuel with
  | zero =>
    intro k _ hf _ _
    exact absurd hf (Nat.not_lt_zero _)
  | succ fuel ih =>
    intro k hk hf hno hstop
    rw [zip_loop]
    by_cases hkL : k = L
    · subst hkL
      rw [hstop]
      simp
    · have hklt : k < L := lt_of_le_of_ne hk hkL
      rw [hno k le_rfl hklt]
      simp only [Bool.false_eq_true, if_false]
      rw [increment_replicate,
        ih (k + 1) hklt (by omega) (fun j h1 h2 => hno j (by omega) h2) hstop]
      have harith : L - k = (L - (k + 1)) + 1 := by omega
      rw [harith, List.range'_succ, List.map_cons]

/-- The begin-to-end traversal of the zip view visits exactly the offsets
`0, ..., L-1` when `L` is the first offset at which the sentinel comparison
succeeds and some range is at least `L` long. -/
theorem zip_to_list_eq (mask : Nat) (ranges : List (List α)) (L : Nat)
    (hmax : L ≤ (ranges.map List.length).foldr max 0)
    (hno : ∀ j, j < L →
      compare_zip_iterators mask (List.replicate ranges.length j)
        (capture_end_iterators mask (ranges.map List.length)) = false)
    (hstop : compare_zip_iterators mask (List.replicate ranges.length L)
        (capture_end_iterators mask (ranges.map List.length)) = true) :
    zip_to_list mask ranges =
      (List.range L).map
        (fun j => dereference_iterator ranges (List.replicate ranges.length j)) := by
  rw [zip_to_list, zip_begin,
    zip_loop_range mask ranges _ L (zip_fuel ranges) 0 (Nat.zero_le L)
      (by rw [zip_fuel]; omega) (fun j _ h2 => hno j h2) hstop]
  rw [List.range_eq_range']
  simp

/-- A determinate accumulator survives the fold as the running minimum of
the known sizes: an indeterminate entry is absorbed at its pairwise step and
never wins the minimum. -/
theorem minimum_fold_some :
    ∀ (t : List (Option Nat)) (v : Nat),
      minimum_static_size_fold (some v) t = some ((known_sizes t).foldl min v) := by
  intro t
  induction t with
  | nil => intro v; rfl
  | cons a t ih =>
    intro v
    cases a with
    | none =>
      rw [minimum_static_size_fold]
      show minimum_static_size_fold (some v) t = _
      rw [ih v]
      congr 1
    | some w =>
      rw [minimum_static_size_fold]
      show minimum_static_size_fold (if v < w then some v else some w) t = _
      have hmin : (if v < w then some v else some w) = some (min v w) := by
        rcases Nat.lt_or_ge v w with h | h
        · rw [if_pos h]
          congr 1
          omega
        · rw [if_neg (by omega)]
          congr 1
          omega
      rw [hmin, ih (min v w)]
      rfl

/-- An indeterminate accumulator is dropped at the first pairwise step, so
the fold continues as the fold of the remaining sizes. -/
theorem minimum_fold_none (t : List (Option Nat)) :
    minimum_static_size_fold none t = minimum_static_size t := by
  cases t with
  | nil => rfl
  | cons s rest => rfl

/-- The template fold of `minimum_static_size` agrees with the direct
specification: the minimum of the known sizes when at least one size is
known, `none` when every size is unknown. -/
theorem minimum_eq_spec : ∀ (sizes : List (Option Nat)), minimum_static_size sizes = spec_min sizes := by
  intro sizes
  induction sizes with
  | nil => rfl
  | cons s rest ih =>
    cases s with
    | none =>
      rw [minimum_static_size, minimum_fold_none, ih]
      rfl
    | some v =>
      rw [minimum_static_size, minimum_fold_some]
      rfl

/-- C1: for every zip iterator and its sentinel, `iterator == sentinel`
returns true if and only if at least one slot examined by the selector mask
has its current position equal to the sentinel's end marker for that slot (a
logical OR over examined slots); unexamined slots contribute no comparison
at all — the equivalence quantifies over examined slots only. -/
theorem C1_compare_or_over_examined (mask : Nat) (l lens : List Nat)
    (h : l.length = lens.length) :
    compare_zip_iterators mask l (capture_end_iterators mask lens) = true ↔
      ∃ j, j < l.length ∧ examine_zip_element mask j = true ∧
        l.getD j 0 = lens.getD j 0 :=
  compare_capture_iff mask l lens h

theorem C1_compare_or_over_examined_witness :
    ([0, 3] : List Nat).length = ([5, 3] : List Nat).length ∧
      (compare_zip_iterators 2 [0, 3] (capture_end_iterators 2 [5, 3]) = true ↔
        ∃ j, j < ([0, 3] : List Nat).length ∧ examine_zip_element 2 j = true ∧
          ([0, 3] : List Nat).getD j 0 = ([5, 3] : List Nat).getD j 0) :=
  ⟨rfl, C1_compare_or_over_examined 2 [0, 3] [5, 3] rfl⟩

/-- C6: a single advance operation increments every one of the component
positions by exactly one step — the tuple keeps its arity and each slot,
selected by the mask or not, moves forward by one, independently of the
other slots. -/
theorem C6_advance_all_slots (it : List Nat) :
    (increment_iterator it).length = it.length ∧
    ∀ j, j < it.length → (increment_iterator it).getD j 0 = it.getD j 0 + 1 := by
  constructor
  · rw [increment_iterator, List.length_map]
  · intro j hj
    rw [increment_iterator, List.getD_eq_getElem?_getD, List.getElem?_map,
      List.getElem?_eq_getElem hj, List.getD_eq_getElem?_getD, List.getElem?_eq_getElem hj]
    rfl

/-- C7: the minimum-static-size fold over a non-empty list of per-sequence
sizes returns the minimum of the known sizes when at least one size is known
and `none` (unknown) when every size is unknown; an unknown entry is
absorbed by each pairwise-minimum step and never wins the minimum. -/
theorem C7_minimum_static_size_spec (sizes : List (Option Nat)) (h : sizes ≠ []) :
    minimum_static_size sizes = spec_min sizes ∧
      (spec_min sizes = none ↔ ∀ s ∈ sizes, s = none) := by
  refine ⟨minimum_eq_spec sizes, ?_⟩
  rw [spec_min]
  rcases hk : known_sizes sizes with _ | ⟨x, xs⟩
  · simp only [true_iff]
    rw [known_sizes, List.filterMap_eq_nil_iff] at hk
    intro s hs
    simpa using hk s hs
  · refine iff_of_false (by simp) ?_
    intro hall
    have hnil : known_sizes sizes = [] := by
      rw [known_sizes, List.filterMap_eq_nil_iff]
      intro a ha
      rw [hall a ha]
      rfl
    rw [hk] at hnil
    exact absurd hnil (by simp)

theorem C7_minimum_static_size_spec_witness :
    ([none, some 5, some 2, none] : List (Option Nat)) ≠ [] ∧
      (minimum_static_size [none, some 5, some 2, none] =
          spec_min [none, some 5, some 2, none] ∧
        (spec_min ([none, some 5, some 2, none] : List (Option Nat)) = none ↔
          ∀ s ∈ ([none, some 5, some 2, none] : List (Option Nat)), s = none)) :=
  ⟨by decide, C7_minimum_static_size_spec [none, some 5, some 2, none] (by decide)⟩

/-- C5: a zip construction whose selector mask examines no sequence at all
is rejected by the `requires` clause — an empty-selector zip is never
accepted, whatever the ranges are. -/
theorem C5_empty_selector_rejected (mask : Nat) (sizes : List (Option Nat))
    (h : ∀ n, examine_zip_element mask n = false) :
    zip_accepted mask sizes = false := by
  have hmask : mask % 2 ^ 32 = 0 := by
    refine Nat.eq_of_testBit_eq fun i => ?_
    rw [Nat.zero_testBit]
    by_cases hi : i < 32
    · have hx := h i
      rw [examine_eq_testBit] at hx
      simpa [hi] using hx
    · refine Nat.testBit_eq_false_of_lt ?_
      calc mask % 2 ^ 32 < 2 ^ 32 := Nat.mod_lt mask (by norm_num)
        _ ≤ 2 ^ i := Nat.pow_le_pow_right (by omega) (by omega)
  rw [zip_accepted, hmask]
  simp

theorem C5_empty_selector_rejected_witness :
    (∀ n, examine_zip_element 0 n = false) ∧ zip_accepted 0 [some 1] = false :=
  ⟨fun n => by simp [examine_zip_element],
    C5_empty_selector_rejected 0 [some 1] (fun n => by simp [examine_zip_element])⟩

/-- C8: the examined predicate is a pure function of the selector mask and
the index: for every index in the supported range 0 through 31 it holds
exactly when the corresponding bit of the 32-bit mask value is set. -/
theorem C8_examine_is_bit_test (mask n : Nat) (h : n < 32) :
    examine_zip_element mask n = Nat.testBit (mask % 2 ^ 32) n := by
  rw [examine_eq_testBit]
  simp [h]

theorem C8_examine_is_bit_test_witness :
    31 < 32 ∧ examine_zip_element (2 ^ 31) 31 = Nat.testBit (2 ^ 31 % 2 ^ 32) 31 :=
  ⟨by decide, C8_examine_is_bit_test (2 ^ 31) 31 (by decide)⟩

/-- C9: for an iterator obtained from `begin()` and advanced `k` times, the
subtraction against the `begin()` position — computed from sequence 0's
positions alone by `operator-` — equals `k`, the number of advances. -/
theorem C9_distance_counts_advances (ranges : List (List α)) (k : Nat)
    (h : 0 < ranges.length) :
    zip_iterator_sub (advance_iterator k (zip_begin ranges)) (zip_begin ranges) = k := by
  rw [zip_begin, advance_replicate]
  rcases ranges with _ | ⟨r, rest⟩
  · exact absurd h (by simp)
  · rw [zip_iterator_sub]
    simp only [List.length_cons, List.replicate_succ, List.getD_cons_zero]
    omega

theorem C9_distance_counts_advances_witness :
    0 < ([[10, 11, 12]] : List (List Nat)).length ∧
      zip_iterator_sub (advance_iterator 2 (zip_begin [[10, 11, 12]]))
        (zip_begin ([[10, 11, 12]] : List (List Nat))) = 2 :=
  ⟨by decide, C9_distance_counts_advances [[10, 11, 12]] 2 (by decide)⟩

/-- C10: for the same instantiated mask and ranges, the selector-tagged
constructor produces a view identical to the plain constructor — same
begin-iterator component positions and same sentinel — and the tag
argument's value is never used. -/
theorem C10_selector_tag_constructor_delegates (tag tag2 mask : Nat)
    (ranges : List (List α)) :
    zip_make_selector tag mask ranges = zip_make mask ranges ∧
    zip_make_selector tag mask ranges = zip_make_selector tag2 mask ranges ∧
    (zip_make_selector tag mask ranges).1 = zip_begin ranges ∧
    (zip_make_selector tag mask ranges).2 =
      capture_end_iterators mask (ranges.map List.length) :=
  ⟨rfl, rfl, rfl, rfl⟩

/-- Reading an in-range slot with a default yields the element itself. -/
theorem getD_of_lt (l : List γ) (j : Nat) (d : γ) (h : j < l.length) :
    l.getD j d = l[j] := by
  rw [List.getD_eq_getElem?_getD, List.getElem?_eq_getElem h]
  rfl

/-- An in-range slot read with a default is a member of the list. -/
theorem getD_mem_of_lt (l : List γ) (j : Nat) (d : γ) (h : j < l.length) :
    l.getD j d ∈ l := by
  rw [getD_of_lt l j d h]
  exact List.getElem_mem h

/-- C4: zip construction is accepted when the minimum static size over
examined sequences is unknown or at most the minimum static size over all
sequences, and rejected when both minima are known and the examined minimum
exceeds the overall minimum; in particular a fixed-length-2 selected range
zipped with a fixed-length-5 unselected range is accepted, while a
fixed-length-5 selected range zipped with a fixed-length-2 unselected range
is rejected. -/
theorem C4_static_size_bounds :
    zip_accepted 1 [some 2, some 5] = true ∧
    zip_accepted 1 [some 5, some 2] = false ∧
    ∀ mask sizes,
      (zip_static_size_bounds_check mask sizes = true ↔
        spec_min (get_examined_static_size mask sizes) = none ∨
        ∃ me ma, spec_min (get_examined_static_size mask sizes) = some me ∧
          spec_min sizes = some ma ∧ me ≤ ma) := by
  refine ⟨by decide, by decide, ?_⟩
  intro mask sizes
  rw [← minimum_eq_spec (get_examined_static_size mask sizes), ← minimum_eq_spec sizes]
  rcases h1 : minimum_static_size (get_examined_static_size mask sizes) with _ | me
  · simp [zip_static_size_bounds_check, h1]
  · rcases h2 : minimum_static_size sizes with _ | ma
    · simp [zip_static_size_bounds_check, h1, h2]
    · simp [zip_static_size_bounds_check, h1, h2]

/-- C3: when no unselected range is shorter than the shortest selected
range, the zip yields exactly as many tuples as the length of the shortest
selected range (`Lmin`). -/
theorem C3_stops_at_shortest_selected (ranges : List (List α)) (mask Lmin : Nat)
    (hsel : ∃ j, j < ranges.length ∧ examine_zip_element mask j = true ∧
      (ranges.getD j []).length = Lmin)
    (hmin : ∀ j, j < ranges.length → examine_zip_element mask j = true →
      Lmin ≤ (ranges.getD j []).length)
    (hunsel : ∀ j, j < ranges.length → examine_zip_element mask j = false →
      Lmin ≤ (ranges.getD j []).length) :
    (zip_to_list mask ranges).length = Lmin := by
  obtain ⟨j0, hj0, hex0, hlen0⟩ := hsel
  have hmax : Lmin ≤ (ranges.map List.length).foldr max 0 := by
    refine mem_le_foldr_max ?_
    rw [← hlen0]
    exact List.mem_map_of_mem List.length (getD_mem_of_lt ranges j0 [] hj0)
  have hstop : compare_zip_iterators mask (List.replicate ranges.length Lmin)
      (capture_end_iterators mask (ranges.map List.length)) = true :=
    (stop_iff mask ranges Lmin).mpr ⟨j0, hj0, hex0, hlen0⟩
  have hno : ∀ j, j < Lmin → compare_zip_iterators mask (List.replicate ranges.length j)
      (capture_end_iterators mask (ranges.map List.length)) = false := by
    intro j hj
    rcases hcmp : compare_zip_iterators mask (List.replicate ranges.length j)
        (capture_end_iterators mask (ranges.map List.length)) with _ | _
    · rfl
    · exfalso
      obtain ⟨i, hi, hexi, hleni⟩ := (stop_iff mask ranges j).mp hcmp
      have := hmin i hi hexi
      omega
  rw [zip_to_list_eq mask ranges Lmin hmax hno hstop]
  simp

theorem C3_stops_at_shortest_selected_witness :
    (zip_to_list 1 [[0, 1], [10, 11, 12, 13, 14], [20, 21, 22, 23, 24]]
        : List (List (Option Nat))).length = 2 ∧
      (zip_to_list 3 [[0, 1], [10, 11, 12, 13, 14], [20, 21, 22, 23, 24]]
        : List (List (Option Nat))).length = 2 :=
  ⟨C3_stops_at_shortest_selected [[0, 1], [10, 11, 12, 13, 14], [20, 21, 22, 23, 24]] 1 2
      ⟨0, by decide, by decide, by decide⟩ (by decide) (by decide),
    C3_stops_at_shortest_selected [[0, 1], [10, 11, 12, 13, 14], [20, 21, 22, 23, 24]] 3 2
      ⟨0, by decide, by decide, by decide⟩ (by decide) (by decide)⟩

/-- C2: for N >= 1 ranges all of the same length `L`, the zip built with the
default selector (sequence 0, mask value 1) produces exactly `L` tuples in
lock-step order, and the `i`-th component of the `k`-th tuple is sequence
`i`'s element at offset `k`. -/
theorem C2_default_selector_lockstep (ranges : List (List α)) (L : Nat)
    (hne : 0 < ranges.length) (hlen : ∀ s ∈ ranges, s.length = L) :
    (zip_to_list 1 ranges).length = L ∧
      ∀ k, k < L → ∀ i, i < ranges.length →
        ∃ x, (ranges.getD i [])[k]? = some x ∧
          ((zip_to_list 1 ranges).getD k []).getD i none = some x := by
  have hlen0 : (ranges.getD 0 []).length = L :=
    hlen _ (getD_mem_of_lt ranges 0 [] hne)
  have hstop : compare_zip_iterators 1 (List.replicate ranges.length L)
      (capture_end_iterators 1 (ranges.map List.length)) = true :=
    (stop_iff 1 ranges L).mpr ⟨0, hne, by rw [examine_one]; rfl, hlen0⟩
  have hno : ∀ j, j < L → compare_zip_iterators 1 (List.replicate ranges.length j)
      (capture_end_iterators 1 (ranges.map List.length)) = false := by
    intro j hj
    rcases hcmp : compare_zip_iterators 1 (List.replicate ranges.length j)
        (capture_end_iterators 1 (ranges.map List.length)) with _ | _
    · rfl
    · exfalso
      obtain ⟨i, hi, hexi, hleni⟩ := (stop_iff 1 ranges j).mp hcmp
      have hiL : (ranges.getD i []).length = L :=
        hlen _ (getD_mem_of_lt ranges i [] hi)
      omega
  have hmax : L ≤ (ranges.map List.length).foldr max 0 := by
    refine mem_le_foldr_max ?_
    rw [← hlen0]
    exact List.mem_map_of_mem List.length (getD_mem_of_lt ranges 0 [] hne)
  have heq := zip_to_list_eq 1 ranges L hmax hno hstop
  constructor
  · rw [heq]
    simp
  · intro k hk i hi
    have hkl : k < (ranges.getD i []).length := by
      rw [hlen _ (getD_mem_of_lt ranges i [] hi)]
      exact hk
    have hgd : ranges.getD i [] = ranges[i] := getD_of_lt ranges i [] hi
    have hkl2 : k < ranges[i].length := by rw [← hgd]; exact hkl
    refine ⟨ranges[i][k], ?_, ?_⟩
    · rw [hgd]
      exact List.getElem?_eq_getElem hkl2
    · rw [heq]
      have h1 : ((List.range L).map
            (fun j => dereference_iterator ranges (List.replicate ranges.length j))).getD k [] =
          dereference_iterator ranges (List.replicate ranges.length k) := by
        rw [List.getD_eq_getElem?_getD, List.getElem?_map]
        simp [List.getElem?_range, hk]
      rw [h1, dereference_replicate, List.getD_eq_getElem?_getD, List.getElem?_map,
        List.getElem?_eq_getElem hi]
      simp only [Option.map_some', Option.getD_some]
      exact List.getElem?_eq_getElem hkl2

theorem C2_default_selector_lockstep_witness :
    0 < ([[1, 2], [3, 4]] : List (List Nat)).length ∧
      (∀ s ∈ ([[1, 2], [3, 4]] : List (List Nat)), s.length = 2) ∧
      ((zip_to_list 1 ([[1, 2], [3, 4]] : List (List Nat))).length = 2 ∧
        ∀ k, k < 2 → ∀ i, i < ([[1, 2], [3, 4]] : List (List Nat)).length →
          ∃ x, (([[1, 2], [3, 4]] : List (List Nat)).getD i [])[k]? = some x ∧
            ((zip_to_list 1 ([[1, 2], [3, 4]] : List (List Nat))).getD k []).getD i none =
              some x) :=
  ⟨by decide, by decide,
    C2_default_selector_lockstep [[1, 2], [3, 4]] 2 (by decide) (by decide)⟩
